import Mathlib

/-!
Verification of the docusaurus-docs-to-pdf harvesting-and-assembly pipeline.

The development shallowly embeds the program's data model and operations:

* `SidebarItem` / `PageDetails` mirror the interfaces of `src/type.ts`.
* `extractPages` mirrors the tree flattener nested in `buildPageDetailsParallel`.
* `poolStep` / `poolRun` give a small-step semantics for the worker pool of
  `buildPageDetailsParallel`: a schedule (a list of worker indices) interleaves
  the workers' claim/complete transitions arbitrarily.
* `processSinglePage` mirrors the per-page harvester, with an injectable
  failing step and an explicit execution-context ledger.
* `rewriteLinks`, `generateValidHtmlId`, `getElementOuterHtml`,
  `parseListItems` mirror the browser-side functions of `src/docusaurus.ts`.
* `renderTocEntries` / `assembleHtml` mirror the TOC renderer of `src/html.ts`
  and the stage-3 merging of `convertDocusaurusPageToPdf`, at the granularity
  of emitted blocks and tags.
-/

namespace DocsToPdf

/-- A navigation node of the Docusaurus sidebar (`SidebarItem` in `src/type.ts`):
title, unique id, in-site `path` (the raw href attribute), resolved `url`, and
ordered children. -/
inductive SidebarItem : Type where
  | mk (title id path url : String) (children : List SidebarItem)

def SidebarItem.title : SidebarItem → String
  | .mk t _ _ _ _ => t

def SidebarItem.id : SidebarItem → String
  | .mk _ i _ _ _ => i

def SidebarItem.path : SidebarItem → String
  | .mk _ _ p _ _ => p

def SidebarItem.url : SidebarItem → String
  | .mk _ _ _ u _ => u

def SidebarItem.children : SidebarItem → List SidebarItem
  | .mk _ _ _ _ c => c

/-- The harvested result for one page (`PageDetails` in `src/type.ts`):
the sidebar item's metadata plus the extracted `html`. -/
structure PageDetails where
  id : String
  title : String
  url : String
  path : String
  html : String
deriving DecidableEq, Repr

/-- Placeholder item used when indexing out of range (never reached in the
theorems below, which bound every index by the list length). -/
def noItem : SidebarItem := SidebarItem.mk "" "" "" "" []

/-- JS `String.prototype.endsWith`, embedded over the character sequence. -/
def strEndsWith (s suffix : String) : Bool :=
  suffix.data.isSuffixOf s.data

/-- The leaf-selection predicate of the flattener (the condition on line 60 of
the main module): no children, a truthy (non-empty) `url`, not exactly `#`, and
not ending in `/#`. -/
def isLeafPage (item : SidebarItem) : Bool :=
  item.children.isEmpty && !(item.url == "") && !(item.url == "#")
    && !(strEndsWith item.url "/#")

/-- The tree flattener nested in `buildPageDetailsParallel`: walks the items in
order, pushes a copy of each item satisfying the leaf condition onto the
accumulator, and descends into non-empty `children` (the item is destructured
so that the recursion is visibly on its `children` field). -/
def extractPages : List SidebarItem → List SidebarItem → List SidebarItem
  | [], flattenedList => flattenedList
  | SidebarItem.mk t i p u c :: rest, flattenedList =>
    let acc₁ :=
      if c.isEmpty && !(u == "") && !(u == "#") && !(strEndsWith u "/#") then
        flattenedList ++ [SidebarItem.mk t i p u c]
      else flattenedList
    let acc₂ := if c.isEmpty then acc₁ else extractPages c acc₁
    extractPages rest acc₂

/-- Pre-order depth-first traversal of a forest: each node before its
children, children before later siblings (the spec's "document order"). -/
def preorder : List SidebarItem → List SidebarItem
  | [] => []
  | SidebarItem.mk t i p u c :: rest =>
    SidebarItem.mk t i p u c :: (preorder c ++ preorder rest)

theorem extractPages_eq_aux (n : Nat) :
    ∀ items acc, sizeOf items ≤ n →
      extractPages items acc = acc ++ (preorder items).filter isLeafPage := by
  induction n with
  | zero =>
    intro items acc h
    cases items with
    | nil => simp [extractPages, preorder]
    | cons a l =>
      exfalso
      simp only [List.cons.sizeOf_spec] at h
      omega
  | succ n ih =>
    intro items acc h
    cases items with
    | nil => simp [extractPages, preorder]
    | cons item rest =>
      obtain ⟨t, i, p, u, c⟩ := item
      have hsz : sizeOf c ≤ n ∧ sizeOf rest ≤ n := by
        simp only [List.cons.sizeOf_spec, SidebarItem.mk.sizeOf_spec] at h
        omega
      have hlf : isLeafPage (SidebarItem.mk t i p u c)
          = (c.isEmpty && !(u == "") && !(u == "#") && !(strEndsWith u "/#")) := by
        simp [isLeafPage, SidebarItem.children, SidebarItem.url]
      by_cases hc : c.isEmpty
      · have hcnil : c = [] := by
          cases c with
          | nil => rfl
          | cons x xs => simp [List.isEmpty] at hc
        subst hcnil
        simp only [extractPages, hc, if_true, preorder, List.filter_cons,
          List.filter_append, List.filter_nil, hlf, List.isEmpty_nil,
          Bool.true_and, ih rest _ hsz.2]
        by_cases hu : (!(u == "") && !(u == "#") && !(strEndsWith u "/#")) = true
        · simp [hu, List.append_assoc]
        · simp [Bool.eq_false_iff.mpr hu, hu]
      · have hcf : c.isEmpty = false := Bool.eq_false_iff.mpr hc
        have hlff : isLeafPage (SidebarItem.mk t i p u c) = false := by
          simp [hlf, hcf]
        simp only [extractPages, hcf, Bool.false_and, if_false,
          ih c _ hsz.1, ih rest _ hsz.2, preorder, List.filter_cons,
          List.filter_append, hlff, List.append_assoc]
        simp

/-- C3: the flattened list produced by `extractPages` is exactly the pre-order
depth-first traversal of the tree filtered by the leaf predicate (no children,
non-empty url, not `#`, not ending in `/#`); nodes with children are descended
into but never emitted, since the predicate rejects them. -/
theorem extractPages_spec (items : List SidebarItem) :
    extractPages items [] = (preorder items).filter isLeafPage := by
  simpa using extractPages_eq_aux (sizeOf items) items [] (Nat.le_refl _)

/-! ## The worker pool of `buildPageDetailsParallel`

Each of the `maxConcurrency` workers loops: claim the next index from the
shared `currentIndex` cursor (or stop when none remain), await the harvest of
that page, and write the result into the pre-allocated `orderedPageDetails`
slot for the claimed index.  A worker is `idle` between iterations, `busy i`
while awaiting the harvest of index `i`, and `done` once it has observed an
exhausted cursor.  A schedule — an arbitrary list of worker indices — chooses
which worker advances at each step, covering every interleaving of claim and
completion events the single-threaded runtime can produce. -/

inductive WStatus : Type where
  | idle : WStatus
  | busy (idx : Nat) : WStatus
  | finished : WStatus
deriving DecidableEq, Repr

structure PoolState where
  current : Nat
  results : List (Option PageDetails)
  workers : List WStatus
deriving DecidableEq, Repr

/-- Start state: cursor at 0, `new Array(totalPages)` of empty slots, every
worker about to enter its loop. -/
def poolInit (maxConcurrency totalPages : Nat) : PoolState :=
  { current := 0
    results := List.replicate totalPages none
    workers := List.replicate maxConcurrency WStatus.idle }

/-- One transition of worker `w`: an idle worker either claims
`pageIndexToProcess := currentIndex` (and increments the cursor) or, with the
cursor exhausted, leaves its loop; a busy worker completes its harvest and
writes the `PageDetails` into slot `pageIndexToProcess`; a finished worker
does nothing.  `harvest i page` is the value `processSinglePage` returns for
the page at index `i`. -/
def poolStep (pages : List SidebarItem) (harvest : Nat → SidebarItem → PageDetails)
    (s : PoolState) (w : Nat) : PoolState :=
  match s.workers[w]? with
  | some WStatus.idle =>
      if s.current < pages.length then
        { current := s.current + 1
          results := s.results
          workers := s.workers.set w (WStatus.busy s.current) }
      else
        { s with workers := s.workers.set w WStatus.finished }
  | some (WStatus.busy i) =>
      { s with
        results := s.results.set i (some (harvest i (pages.getD i noItem)))
        workers := s.workers.set w WStatus.idle }
  | some WStatus.finished => s
  | none => s

/-- Run the pool under a schedule: the interleaving of worker steps. -/
def poolRun (pages : List SidebarItem) (harvest : Nat → SidebarItem → PageDetails)
    (sched : List Nat) (s : PoolState) : PoolState :=
  sched.foldl (poolStep pages harvest) s

/-- The join at `Promise.all`: every worker has left its loop. -/
def allWorkersDone (s : PoolState) : Prop :=
  ∀ st ∈ s.workers, st = WStatus.finished

instance (s : PoolState) : Decidable (allWorkersDone s) :=
  List.decidableBAll _ s.workers

/-- The pool invariant: worker and result lists keep their lengths, the cursor
never passes the end, every index below the cursor is either already written
with its own page's harvest or held by some busy worker, busy indices were
claimed from the cursor, and a worker only finishes after the cursor is
exhausted. -/
structure PoolInv (W : Nat) (pages : List SidebarItem)
    (harvest : Nat → SidebarItem → PageDetails) (s : PoolState) : Prop where
  wk_len : s.workers.length = W
  res_len : s.results.length = pages.length
  cur_le : s.current ≤ pages.length
  covered : ∀ i : Nat, i < s.current →
    s.results[i]? = some (some (harvest i (pages.getD i noItem)))
      ∨ ∃ w : Nat, s.workers[w]? = some (WStatus.busy i)
  busy_lt : ∀ w i : Nat, s.workers[w]? = some (WStatus.busy i) → i < s.current
  fin_ge : ∀ w : Nat, s.workers[w]? = some WStatus.finished → pages.length ≤ s.current

theorem poolInit_inv (W N : Nat) (pages : List SidebarItem)
    (harvest : Nat → SidebarItem → PageDetails) (hN : N = pages.length) :
    PoolInv W pages harvest (poolInit W N) := by
  subst hN
  refine ⟨?_, ?_, ?_, ?_, ?_, ?_⟩
  · simp [poolInit]
  · simp [poolInit]
  · simp [poolInit]
  · intro i hi
    simp only [poolInit] at hi
    omega
  · intro w i hw
    simp only [poolInit, List.getElem?_replicate] at hw
    split at hw
    · simp at hw
    · simp at hw
  · intro w hw
    simp only [poolInit, List.getElem?_replicate] at hw
    split at hw
    · simp at hw
    · simp at hw

theorem poolStep_inv {W : Nat} {pages : List SidebarItem}
    {harvest : Nat → SidebarItem → PageDetails} {s : PoolState}
    (hInv : PoolInv W pages harvest s) (w : Nat) :
    PoolInv W pages harvest (poolStep pages harvest s w) := by
  obtain ⟨wk_len, res_len, cur_le, covered, busy_lt, fin_ge⟩ := hInv
  cases hw : s.workers[w]? with
  | none => simpa [poolStep, hw] using ⟨wk_len, res_len, cur_le, covered, busy_lt, fin_ge⟩
  | some st =>
    have hwlt : w < s.workers.length := by
      by_contra hge
      rw [List.getElem?_eq_none (Nat.le_of_not_lt hge)] at hw
      exact Option.noConfusion hw
    cases st with
    | idle =>
      by_cases hcur : s.current < pages.length
      · simp only [poolStep, hw, if_pos hcur]
        refine ⟨by simpa using wk_len, res_len, hcur, ?_, ?_, ?_⟩
        · intro i hi
          rcases Nat.lt_succ_iff_lt_or_eq.mp hi with hi' | hi'
          · rcases covered i hi' with hres | ⟨w', hw'⟩
            · exact Or.inl hres
            · refine Or.inr ⟨w', ?_⟩
              have hne : w ≠ w' := by
                intro he; rw [he, hw'] at hw; exact WStatus.noConfusion (Option.some.inj hw)
              simpa [List.getElem?_set_ne hne] using hw'
          · subst hi'
            exact Or.inr ⟨w, by simp [List.getElem?_set_eq_of_lt _ hwlt]⟩
        · intro w' i hw'
          by_cases he : w = w'
          · subst he
            rw [List.getElem?_set_eq_of_lt _ hwlt] at hw'
            cases WStatus.busy.inj (Option.some.inj hw')
            exact Nat.lt_succ_self _
          · rw [List.getElem?_set_ne he] at hw'
            exact Nat.lt_succ_of_lt (busy_lt w' i hw')
        · intro w' hw'
          by_cases he : w = w'
          · subst he
            rw [List.getElem?_set_eq_of_lt _ hwlt] at hw'
            exact WStatus.noConfusion (Option.some.inj hw')
          · rw [List.getElem?_set_ne he] at hw'
            exact Nat.le_succ_of_le (fin_ge w' hw')
      · simp only [poolStep, hw, if_neg hcur]
        refine ⟨by simpa using wk_len, res_len, cur_le, ?_, ?_, ?_⟩
        · intro i hi
          rcases covered i hi with hres | ⟨w', hw'⟩
          · exact Or.inl hres
          · refine Or.inr ⟨w', ?_⟩
            have hne : w ≠ w' := by
              intro he; rw [he, hw'] at hw; exact WStatus.noConfusion (Option.some.inj hw)
            simpa [List.getElem?_set_ne hne] using hw'
        · intro w' i hw'
          by_cases he : w = w'
          · subst he
            rw [List.getElem?_set_eq_of_lt _ hwlt] at hw'
            exact WStatus.noConfusion (Option.some.inj hw')
          · rw [List.getElem?_set_ne he] at hw'
            exact busy_lt w' i hw'
        · intro w' hw'
          by_cases he : w = w'
          · subst he; exact Nat.le_of_not_lt hcur
          · rw [List.getElem?_set_ne he] at hw'
            exact fin_ge w' hw'
    | busy i =>
      have hilt : i < pages.length := Nat.lt_of_lt_of_le (busy_lt w i hw) cur_le
      have hires : i < s.results.length := by omega
      simp only [poolStep, hw]
      refine ⟨by simpa using wk_len, by simpa using res_len, cur_le, ?_, ?_, ?_⟩
      · intro j hj
        by_cases hji : j = i
        · subst hji
          exact Or.inl (List.getElem?_set_eq_of_lt _ hires)
        · rcases covered j hj with hres | ⟨w', hw'⟩
          · exact Or.inl (by rw [List.getElem?_set_ne (fun he => hji he.symm)]; exact hres)
          · refine Or.inr ⟨w', ?_⟩
            have hne : w ≠ w' := by
              intro he
              rw [he, hw'] at hw
              exact hji (WStatus.busy.inj (Option.some.inj hw))
            simpa [List.getElem?_set_ne hne] using hw'
      · intro w' j hw'
        by_cases he : w = w'
        · subst he
          rw [List.getElem?_set_eq_of_lt _ hwlt] at hw'
          exact WStatus.noConfusion (Option.some.inj hw')
        · rw [List.getElem?_set_ne he] at hw'
          exact busy_lt w' j hw'
      · intro w' hw'
        by_cases he : w = w'
        · subst he
          rw [List.getElem?_set_eq_of_lt _ hwlt] at hw'
          exact WStatus.noConfusion (Option.some.inj hw')
        · rw [List.getElem?_set_ne he] at hw'
          exact fin_ge w' hw'
    | finished => simpa [poolStep, hw] using ⟨wk_len, res_len, cur_le, covered, busy_lt, fin_ge⟩

theorem poolRun_inv {W : Nat} {pages : List SidebarItem}
    {harvest : Nat → SidebarItem → PageDetails} (sched : List Nat) {s : PoolState}
    (hInv : PoolInv W pages harvest s) :
    PoolInv W pages harvest (poolRun pages harvest sched s) := by
  induction sched generalizing s with
  | nil => simpa [poolRun] using hInv
  | cons w rest ih =>
    simpa [poolRun] using ih (poolStep_inv hInv w)

/-- Any completed run of the pool, under any schedule, yields the ordered
results: slot `i` holds exactly the harvest of page `i`. -/
theorem pool_correct (pages : List SidebarItem)
    (harvest : Nat → SidebarItem → PageDetails) (W : Nat) (sched : List Nat)
    (hW : 1 ≤ W)
    (hT : allWorkersDone (poolRun pages harvest sched (poolInit W pages.length))) :
    (poolRun pages harvest sched (poolInit W pages.length)).results
      = (List.range pages.length).map
          (fun i => some (harvest i (pages.getD i noItem))) := by
  set s := poolRun pages harvest sched (poolInit W pages.length) with hs
  have hInv : PoolInv W pages harvest s :=
    poolRun_inv sched (poolInit_inv W pages.length pages harvest rfl)
  have hcur : s.current = pages.length := by
    have h0 : 0 < s.workers.length := by rw [hInv.wk_len]; omega
    obtain ⟨st, hst⟩ : ∃ st, s.workers[0]? = some st :=
      ⟨s.workers[0], List.getElem?_eq_getElem h0⟩
    have hfin : st = WStatus.finished := hT st (List.getElem?_mem hst)
    subst hfin
    exact Nat.le_antisymm hInv.cur_le (hInv.fin_ge 0 hst)
  have hwritten : ∀ i, i < pages.length →
      s.results[i]? = some (some (harvest i (pages.getD i noItem))) := by
    intro i hi
    rcases hInv.covered i (hcur ▸ hi) with hres | ⟨w', hw'⟩
    · exact hres
    · exact absurd (hT _ (List.getElem?_mem hw')) (by simp)
  apply List.ext_getElem?
  intro n
  by_cases hn : n < pages.length
  · rw [hwritten n hn, List.getElem?_map, List.getElem?_range hn]
    rfl
  · rw [List.getElem?_eq_none (l := s.results), List.getElem?_eq_none]
    · simpa using Nat.le_of_not_lt hn
    · rw [hInv.res_len]; exact Nat.le_of_not_lt hn

/-- `buildPageDetailsParallel`: flatten the sidebar into the pages to process,
then run the worker pool over them under a schedule. -/
def buildPageDetailsParallel (harvest : Nat → SidebarItem → PageDetails)
    (sidebarItems : List SidebarItem) (maxConcurrency : Nat)
    (sched : List Nat) : PoolState :=
  poolRun (extractPages sidebarItems []) harvest sched
    (poolInit maxConcurrency (extractPages sidebarItems []).length)

/-- C1: for every navigation tree and every concurrency bound `W` with
`1 ≤ W ≤ N`, once every worker has joined, slot `i` of the pool's output holds
the harvest result of leaf page `i` of the flattened pre-order list, for every
`i < N`, no matter in which order the schedule lets individual harvests
complete. -/
theorem buildPageDetailsParallel_order (harvest : Nat → SidebarItem → PageDetails)
    (sidebarItems : List SidebarItem) (W : Nat) (sched : List Nat)
    (hW : 1 ≤ W) (hWN : W ≤ (extractPages sidebarItems []).length)
    (hT : allWorkersDone (buildPageDetailsParallel harvest sidebarItems W sched)) :
    (buildPageDetailsParallel harvest sidebarItems W sched).results
      = (List.range (extractPages sidebarItems []).length).map
          (fun i => some (harvest i ((extractPages sidebarItems []).getD i noItem))) :=
  pool_correct (extractPages sidebarItems []) harvest W sched hW hT

def pagesW : List SidebarItem :=
  [SidebarItem.mk "Intro" "a" "/docs/intro" "u1" [],
   SidebarItem.mk "Setup" "c" "/docs/setup" "u2" []]

def harvestW : Nat → SidebarItem → PageDetails :=
  fun _ p => ⟨p.id, p.title, p.url, p.path, "<div>content</div>"⟩

def schedW : List Nat := [0, 1, 0, 1, 0, 1]

theorem buildPageDetailsParallel_order_witness :
    (1 ≤ 2 ∧ 2 ≤ (extractPages pagesW []).length
        ∧ allWorkersDone (buildPageDetailsParallel harvestW pagesW 2 schedW))
      ∧ (buildPageDetailsParallel harvestW pagesW 2 schedW).results
          = (List.range (extractPages pagesW []).length).map
              (fun i => some (harvestW i ((extractPages pagesW []).getD i noItem))) := by
  have hpw : extractPages pagesW [] = pagesW := by
    simp +decide [extractPages, pagesW]
  have hT : allWorkersDone (buildPageDetailsParallel harvestW pagesW 2 schedW) := by
    simp only [buildPageDetailsParallel, hpw]
    decide
  exact ⟨⟨by decide, by rw [hpw]; decide, hT⟩,
    buildPageDetailsParallel_order harvestW pagesW 2 schedW
      (by decide) (by rw [hpw]; decide) hT⟩

/-! ## The per-page content harvester `processSinglePage` -/

/-- Ledger of execution contexts (browser pages) one harvesting task acquired
and released. -/
structure ContextLedger where
  acquired : Nat
  released : Nat
deriving DecidableEq, Repr

/-- The spread `{...sidebarItem, html}` of `processSinglePage`: a fragment
carrying the item's own metadata and the given content. -/
def fragmentOf (item : SidebarItem) (html : String) : PageDetails :=
  { id := item.id, title := item.title, url := item.url, path := item.path,
    html := html }

/-- The fallible steps of the try-block of `processSinglePage`, in program
order: `page.goto`, `page.waitForSelector`, the `expandDetails` evaluation,
the `updateElementId` evaluation, and the `getElementOuterHtml` evaluation.
`failStep = some k` makes step `k` throw; when nothing throws, the last step
returns the harvested markup `harvestHtml item`. -/
def harvestSteps (harvestHtml : SidebarItem → String) (item : SidebarItem)
    (failStep : Option (Fin 5)) : Except Unit String := do
  if failStep = some 0 then throw ()
  if failStep = some 1 then throw ()
  if failStep = some 2 then throw ()
  if failStep = some 3 then throw ()
  if failStep = some 4 then throw ()
  pure (harvestHtml item)

/-- `processSinglePage`: open a fresh browser page (acquire one execution
context), run the fallible steps; on success return the item's metadata with
the harvested `html`, on any failure catch the error and return the metadata
with empty `html`; in both cases the `finally` block closes the page (release
one context). -/
def processSinglePage (harvestHtml : SidebarItem → String) (item : SidebarItem)
    (failStep : Option (Fin 5)) : PageDetails × ContextLedger :=
  let detail : PageDetails :=
    match harvestSteps harvestHtml item failStep with
    | Except.ok html => fragmentOf item html
    | Except.error _ => fragmentOf item ""
  (detail, { acquired := 1, released := 1 })

theorem harvestSteps_fail (harvestHtml : SidebarItem → String)
    (item : SidebarItem) (step : Fin 5) :
    harvestSteps harvestHtml item (some step) = Except.error () := by
  fin_cases step <;> rfl

theorem processSinglePage_ok (harvestHtml : SidebarItem → String)
    (item : SidebarItem) :
    (processSinglePage harvestHtml item none).1
      = fragmentOf item (harvestHtml item) := rfl

theorem processSinglePage_fail (harvestHtml : SidebarItem → String)
    (item : SidebarItem) (step : Fin 5) :
    (processSinglePage harvestHtml item (some step)).1
      = fragmentOf item "" := by
  simp [processSinglePage, harvestSteps_fail]

/-- C7: every exit path of `processSinglePage` — success, or failure at any of
its steps — releases exactly the one execution context the task acquired at
the start. -/
theorem processSinglePage_releases_context (harvestHtml : SidebarItem → String)
    (item : SidebarItem) (failStep : Option (Fin 5)) :
    (processSinglePage harvestHtml item failStep).2.released = 1
      ∧ (processSinglePage harvestHtml item failStep).2.acquired
          = (processSinglePage harvestHtml item failStep).2.released :=
  ⟨rfl, rfl⟩

/-- The harvest function the pool runs when the page at index `k` fails at
step `step` and every other page harvests normally. -/
def failPool (harvestHtml : SidebarItem → String) (k : Nat) (step : Fin 5) :
    Nat → SidebarItem → PageDetails :=
  fun i p => (processSinglePage harvestHtml p (if i = k then some step else none)).1

/-- C2: if exactly one page (index `k`) fails at any step, the completed pool
still produces a sequence of length `N` in which slot `k` holds a fragment
with empty content and the page's own id/title/url/path, every other slot
holds its normally harvested fragment, and the pool as a whole completes. -/
theorem processSinglePage_failure_isolation
    (harvestHtml : SidebarItem → String) (pages : List SidebarItem)
    (W : Nat) (sched : List Nat) (k : Nat) (step : Fin 5)
    (hW : 1 ≤ W) (hk : k < pages.length)
    (hT : allWorkersDone (poolRun pages (failPool harvestHtml k step) sched
        (poolInit W pages.length))) :
    (poolRun pages (failPool harvestHtml k step) sched
        (poolInit W pages.length)).results.length = pages.length
      ∧ (poolRun pages (failPool harvestHtml k step) sched
            (poolInit W pages.length)).results[k]?
          = some (some (fragmentOf (pages.getD k noItem) ""))
      ∧ ∀ i : Nat, i < pages.length → i ≠ k →
          (poolRun pages (failPool harvestHtml k step) sched
              (poolInit W pages.length)).results[i]?
            = some (some (fragmentOf (pages.getD i noItem)
                (harvestHtml (pages.getD i noItem)))) := by
  have hrun := pool_correct pages (failPool harvestHtml k step) W sched hW hT
  refine ⟨?_, ?_, ?_⟩
  · rw [hrun]; simp
  · rw [hrun, List.getElem?_map, List.getElem?_range hk]
    simp [failPool, processSinglePage_fail]
  · intro i hi hik
    rw [hrun, List.getElem?_map, List.getElem?_range hi]
    simp [failPool, hik, processSinglePage_ok]

def hhW : SidebarItem → String := fun p => p.title

def schedW2 : List Nat := [0, 0, 0, 0, 0]

theorem processSinglePage_failure_isolation_witness :
    (1 ≤ 1 ∧ 0 < pagesW.length
        ∧ allWorkersDone (poolRun pagesW (failPool hhW 0 ⟨1, by decide⟩) schedW2
            (poolInit 1 pagesW.length)))
      ∧ ((poolRun pagesW (failPool hhW 0 ⟨1, by decide⟩) schedW2
            (poolInit 1 pagesW.length)).results.length = pagesW.length
        ∧ (poolRun pagesW (failPool hhW 0 ⟨1, by decide⟩) schedW2
              (poolInit 1 pagesW.length)).results[0]?
            = some (some (fragmentOf (pagesW.getD 0 noItem) ""))
        ∧ ∀ i : Nat, i < pagesW.length → i ≠ 0 →
            (poolRun pagesW (failPool hhW 0 ⟨1, by decide⟩) schedW2
                (poolInit 1 pagesW.length)).results[i]?
              = some (some (fragmentOf (pagesW.getD i noItem)
                  (hhW (pagesW.getD i noItem))))) :=
  ⟨⟨by decide, by decide, by decide⟩,
    processSinglePage_failure_isolation hhW pagesW 1 schedW2 0 ⟨1, by decide⟩
      (by decide) (by decide) (by decide)⟩

/-! ## The link rewriter `rewriteLinks` -/

/-- `rewriteLinks` of `src/docusaurus.ts`: for every link of the document, scan
the path→anchor pairs in order; at the first pair whose path equals the link's
href the href is replaced by `#` + anchor and the scan stops; with no matching
pair the href is left unchanged.  The document is modelled by the list of its
links' href values. -/
def rewriteLinks (pathToAnchors : List (String × String))
    (hrefs : List String) : List String :=
  hrefs.map fun linkPath =>
    match pathToAnchors.find? (fun pa => linkPath == pa.1) with
    | some pa => "#" ++ pa.2
    | none => linkPath

/-- C4 counterexample: for the map `[("p","b"), ("#b","z")]` — a legal value of
the quantified path→anchor map, whose second key itself starts with `#` — the
document `["p"]` is rewritten to `["#b"]` by the first pass and to `["#z"]` by
a second pass, so the rewrite is not idempotent for every map. -/
theorem rewriteLinks_double_rewrite :
    rewriteLinks [("p", "b"), ("#b", "z")]
        (rewriteLinks [("p", "b"), ("#b", "z")] ["p"])
      ≠ rewriteLinks [("p", "b"), ("#b", "z")] ["p"] := by decide

theorem rewriteLinks_elem (m : List (String × String)) (hrefs : List String)
    (i : Nat) (h : String) (hh : hrefs[i]? = some h) :
    (rewriteLinks m hrefs)[i]?
      = some (match m.find? (fun pa => h == pa.1) with
          | some pa => "#" ++ pa.2
          | none => h) := by
  rw [rewriteLinks, List.getElem?_map, hh]
  rfl

/-- C4 (amended): a single run of `rewriteLinks` rewrites exactly the hrefs
that equal some map key — the href the first matching pair maps to `#` +
anchor, every other href (near-matches and external links included) kept
verbatim — and, provided no map key equals `#` followed by a map anchor (the
spec's "already-rewritten hrefs won't match original path strings"), a second
run changes nothing. -/
theorem rewriteLinks_exact_match_idempotent (m : List (String × String))
    (hrefs : List String)
    (hm : ∀ pa ∈ m, ∀ qa ∈ m, pa.1 ≠ "#" ++ qa.2) :
    (∀ i : Nat, ∀ h : String, hrefs[i]? = some h →
        ((∀ pa ∈ m, pa.1 ≠ h) → (rewriteLinks m hrefs)[i]? = some h)
          ∧ (∀ pa, m.find? (fun qa => h == qa.1) = some pa →
              (rewriteLinks m hrefs)[i]? = some ("#" ++ pa.2)))
      ∧ rewriteLinks m (rewriteLinks m hrefs) = rewriteLinks m hrefs := by
  constructor
  · intro i h hh
    constructor
    · intro hnone
      rw [rewriteLinks_elem m hrefs i h hh]
      have hfind : m.find? (fun pa => h == pa.1) = none :=
        List.find?_eq_none.mpr fun pa hpa => by
          simp only [beq_iff_eq]
          exact fun he => hnone pa hpa he.symm
      rw [hfind]
    · intro pa hpa
      rw [rewriteLinks_elem m hrefs i h hh, hpa]
  · have hfix : ∀ h : String,
        (match m.find? (fun pa => h == pa.1) with
          | some pa => "#" ++ pa.2
          | none => h)
        = (match m.find? (fun qa =>
              (match m.find? (fun pa => h == pa.1) with
                | some pa => "#" ++ pa.2
                | none => h) == qa.1) with
            | some qa => "#" ++ qa.2
            | none =>
              match m.find? (fun pa => h == pa.1) with
              | some pa => "#" ++ pa.2
              | none => h) := by
      intro h
      cases hfind : m.find? (fun pa => h == pa.1) with
      | none => rw [hfind]
      | some pa =>
        have hpa : pa ∈ m := List.mem_of_find?_eq_some hfind
        have hnone : m.find? (fun qa => ("#" ++ pa.2) == qa.1) = none :=
          List.find?_eq_none.mpr fun qa hqa => by
            simp only [beq_iff_eq]
            exact fun he => hm qa hqa pa hpa he.symm
        rw [hnone]
    unfold rewriteLinks
    rw [List.map_map]
    apply List.map_congr_left
    intro h hmem
    exact (hfix h).symm

def mW : List (String × String) := [("/docs/setup", "idc")]

def hrefsW : List String := ["/docs/setup", "/docs/setup/", "https://ext"]

theorem rewriteLinks_exact_match_idempotent_witness :
    (∀ pa ∈ mW, ∀ qa ∈ mW, pa.1 ≠ "#" ++ qa.2)
      ∧ rewriteLinks mW (rewriteLinks mW hrefsW) = rewriteLinks mW hrefsW :=
  ⟨by decide, (rewriteLinks_exact_match_idempotent mW hrefsW (by decide)).2⟩

/-! ## Exit behaviour of `main` and `convertDocusaurusPageToPdf` -/

/-- Errors the conversion body can raise: the renderer (browser) failing to
launch, or any other stage of the conversion failing. -/
inductive ConvError : Type where
  | launchFailure : ConvError
  | otherFailure (msg : String) : ConvError
deriving DecidableEq, Repr

/-- The observable outcome of `convertDocusaurusPageToPdf`: completion, or an
error that was caught and logged by its own catch-block. -/
inductive ConvResult : Type where
  | completed : ConvResult
  | loggedError (e : ConvError) : ConvResult
deriving DecidableEq, Repr

/-- `convertDocusaurusPageToPdf` wraps its whole body in `try ... catch`: every
error — a renderer launch failure included — is logged and swallowed, and the
function always returns normally (the `finally` then closes the browser). -/
def convertDocusaurusPageToPdf (body : Except ConvError Unit) : ConvResult :=
  match body with
  | Except.ok _ => ConvResult.completed
  | Except.error e => ConvResult.loggedError e

/-- The try-block of `main`: `program.error` (which exits the process with
code 1) models the two missing-required-option checks, a throwing
`fs.mkdirSync` models an uncreatable output directory, and the awaited
conversion — which never throws — comes last. -/
def mainBody (docsUrl pdfPath : Option String) (mkdirOk : Bool)
    (convBody : Except ConvError Unit) : Except String ConvResult := do
  if docsUrl.isNone then
    throw "Missing required option: --docs-url <url>"
  if pdfPath.isNone then
    throw "Missing required option: --pdf-path <path>"
  if !mkdirOk then
    throw "cannot create output directory"
  pure (convertDocusaurusPageToPdf convBody)

/-- The process exit code: 0 when `main` falls off the end of its try-block,
1 when an error escapes to its catch (`process.exit(1)`). -/
def mainExitCode (docsUrl pdfPath : Option String) (mkdirOk : Bool)
    (convBody : Except ConvError Unit) : Nat :=
  match mainBody docsUrl pdfPath mkdirOk convBody with
  | Except.ok _ => 0
  | Except.error _ => 1

/-- C5 counterexample: with both required flags present, a renderer launch
failure is caught and logged inside `convertDocusaurusPageToPdf`, so the
process exits with code 0 — not the claimed code 1. -/
theorem mainExitCode_launch_failure_zero :
    mainExitCode (some "https://x/docs") (some "/tmp/docs.pdf") true
        (Except.error ConvError.launchFailure) = 0
      ∧ mainExitCode (some "https://x/docs") (some "/tmp/docs.pdf") true
          (Except.error ConvError.launchFailure) ≠ 1 :=
  ⟨rfl, by decide⟩

/-- C5 (amended): the process exits with code 1 on a missing required flag
(`--docs-url` or `--pdf-path`) or an uncreatable output directory, and exits
with code 0 whenever setup succeeds — whatever the conversion body does,
renderer launch failure and partial per-page failures included, since
`convertDocusaurusPageToPdf` catches and logs every error instead of
rethrowing it. -/
theorem mainExitCode_spec (url pathv : String) (p : Option String)
    (mkdirOk : Bool) (convBody : Except ConvError Unit) :
    mainExitCode none p mkdirOk convBody = 1
      ∧ mainExitCode (some url) none mkdirOk convBody = 1
      ∧ mainExitCode (some url) (some pathv) false convBody = 1
      ∧ mainExitCode (some url) (some pathv) true convBody = 0
      ∧ convertDocusaurusPageToPdf (Except.error ConvError.launchFailure)
          = ConvResult.loggedError ConvError.launchFailure :=
  ⟨rfl, rfl, rfl, rfl, rfl⟩

/-! ## The identifier assigner `generateValidHtmlId` -/

/-- `generateValidHtmlId` of `src/docusaurus.ts`: the fixed prefix `id-`
followed by `Date.now().toString().substring(5)` — the decimal clock reading
with its first five characters dropped — and a pre-drawn random alphanumeric
part (`Math.random().toString(36).substring(2)`). -/
def generateValidHtmlId (nowMs : Nat) (randomPart : String) : String :=
  "id-" ++ String.mk ((toString nowMs).data.drop 5) ++ randomPart

/-- The variable tail of an id: time part followed by random part. -/
def idSuffix (draw : Nat × String) : String :=
  String.mk ((toString draw.1).data.drop 5) ++ draw.2

/-- The ids produced by a sequence of generations, one per clock/random draw. -/
def idDraws (draws : List (Nat × String)) : List String :=
  draws.map fun d => generateValidHtmlId d.1 d.2

/-- C6 counterexample: `generateValidHtmlId` is a pure function of the clock
and the random draw, so two generations that observe the same millisecond and
the same random value — which `Date.now` and `Math.random` do not preclude —
yield equal ids: K generations need not give K distinct values. -/
theorem generateValidHtmlId_collision :
    ¬ (idDraws [(1693291337000, "4fzyo82mvyr"),
        (1693291337000, "4fzyo82mvyr")]).Nodup := by
  decide

/-! ## Navigation extraction: `parseListItems` -/

/-- An anchor element found inside a sidebar `<li>`: its `textContent`
(nullable), its raw `href` attribute (nullable), and the browser-resolved
`href` property. -/
structure Anchor where
  textContent : Option String
  hrefAttr : Option String
  href : String
deriving DecidableEq, Repr

/-- A sidebar `<li>` element as `parseListItems` sees it: the direct
link/button found by its selector (or nothing), and the direct nested
`ul.menu__list` (or nothing) whose entries form the subtree. -/
inductive LiNode : Type where
  | mk (a : Option Anchor) (subList : Option (List LiNode))

def LiNode.a : LiNode → Option Anchor
  | .mk a _ => a

/-- `parseListItems` of `extractDocusaurusSidebarItems`: walk the `<li>`
entries in order; an entry with no discoverable anchor is skipped (with a
warning) together with its whole subtree; otherwise its sublist is parsed
recursively into `children` and the item is pushed with a freshly generated
id.  `gen` is the id supply, consumed left to right; the parent draws its id
after its children, since the object literal is evaluated after the recursive
call. -/
def parseListItems (gen : Nat → String) :
    List LiNode → Nat → List SidebarItem × Nat
  | [], c => ([], c)
  | LiNode.mk none _ :: rest, c => parseListItems gen rest c
  | LiNode.mk (some anchor) subList :: rest, c =>
    let parsedSub :=
      match subList with
      | some subs => parseListItems gen subs c
      | none => ([], c)
    let item : SidebarItem := SidebarItem.mk
      (anchor.textContent.getD "").trim
      (gen parsedSub.2)
      (anchor.hrefAttr.getD "")
      anchor.href
      parsedSub.1
    let parsedRest := parseListItems gen rest (parsedSub.2 + 1)
    (item :: parsedRest.1, parsedRest.2)

/-- C10: a `<li>` with no discoverable anchor is skipped together with its
entire subtree — parsing a list containing such an entry gives exactly the
parse of the list without it, so none of the entry's descendants appear
anywhere in the extracted navigation tree, even when those descendants carry
valid anchors of their own. -/
theorem parseListItems_skips_linkless_subtree (gen : Nat → String)
    (xs ys : List LiNode) (li : LiNode) (c : Nat) (h : li.a = none) :
    parseListItems gen (xs ++ li :: ys) c = parseListItems gen (xs ++ ys) c := by
  induction xs generalizing c with
  | nil =>
    obtain ⟨a, subList⟩ := li
    simp only [LiNode.a] at h
    subst h
    simp only [List.nil_append, parseListItems]
  | cons x xs ih =>
    obtain ⟨a, subList⟩ := x
    cases a with
    | none =>
      simp only [List.cons_append, parseListItems]
      exact ih c
    | some anchor =>
      cases subList with
      | none => simp only [List.cons_append, parseListItems, ih]
      | some subs => simp only [List.cons_append, parseListItems, ih]

def genW : Nat → String := fun n => "w" ++ toString n

def liW : LiNode :=
  LiNode.mk none
    (some [LiNode.mk (some ⟨some "Child", some "/c", "https://x/c"⟩) none])

def xsW : List LiNode :=
  [LiNode.mk (some ⟨some "A", some "/a", "https://x/a"⟩) none]

def ysW : List LiNode :=
  [LiNode.mk (some ⟨some "B", some "/b", "https://x/b"⟩) none]

theorem parseListItems_skips_linkless_subtree_witness :
    liW.a = none
      ∧ parseListItems genW (xsW ++ liW :: ysW) 0
          = parseListItems genW (xsW ++ ysW) 0 :=
  ⟨rfl, parseListItems_skips_linkless_subtree genW xsW ysW liW 0 rfl⟩

/-- C6 (amended): every generated id starts with the fixed non-numeric prefix
— its first character is 'i', not a digit — and equals `id-` followed by the
time-derived part and the random part, so it is a function of the clock and
random draws alone: in particular the id `parseListItems` assigns to a node
does not depend on the anchor's text or href.  K generations whose draws give
pairwise distinct suffixes yield K distinct ids. -/
theorem generateValidHtmlId_spec (draws : List (Nat × String))
    (hd : (draws.map idSuffix).Nodup) :
    (idDraws draws).Nodup
      ∧ (∀ t : Nat, ∀ r : String,
          (generateValidHtmlId t r).data.head? = some 'i'
            ∧ ∀ ch : Char, (generateValidHtmlId t r).data.head? = some ch →
                ch.isDigit = false)
      ∧ (∀ t : Nat, ∀ r : String,
          generateValidHtmlId t r = "id-" ++ idSuffix (t, r))
      ∧ ∀ times : Nat → Nat, ∀ rands : Nat → String, ∀ c : Nat, ∀ a : Anchor,
          ((parseListItems (fun n => generateValidHtmlId (times n) (rands n))
              [LiNode.mk (some a) none] c).1.map SidebarItem.id)
            = [generateValidHtmlId (times c) (rands c)] := by
  have heq : ∀ t r, generateValidHtmlId t r = "id-" ++ idSuffix (t, r) := by
    intro t r
    simp [generateValidHtmlId, idSuffix, String.append_assoc]
  refine ⟨?_, ?_, heq, ?_⟩
  · have hmap : idDraws draws = (draws.map idSuffix).map (fun s => "id-" ++ s) := by
      rw [idDraws, List.map_map]
      apply List.map_congr_left
      intro d _
      exact heq d.1 d.2
    rw [hmap]
    apply List.Nodup.map ?_ hd
    intro a b hab
    have hdata : ("id-" ++ a).data = ("id-" ++ b).data := congrArg String.data hab
    simp only [String.data_append] at hdata
    exact String.ext (List.append_cancel_left hdata)
  · intro t r
    constructor
    · show (generateValidHtmlId t r).data.head? = some 'i'
      simp [generateValidHtmlId, String.data_append]
    · intro ch hch
      simp only [generateValidHtmlId, String.data_append] at hch
      simp at hch
      subst hch
      decide
  · intro times rands c a
    simp [parseListItems, SidebarItem.id]

def drawsW : List (Nat × String) := [(100000, "aaa"), (100001, "bbb")]

theorem generateValidHtmlId_spec_witness :
    (drawsW.map idSuffix).Nodup ∧ (idDraws drawsW).Nodup :=
  ⟨by decide, (generateValidHtmlId_spec drawsW (by decide)).1⟩

/-! ## Content extraction: `getElementOuterHtml` -/

/-- An HTML element: its markup and the `page-break-after: always` style flag
the extractor sets. -/
structure Element where
  outerHtml : String
  pageBreakAfter : Bool
deriving DecidableEq, Repr

/-- `document.querySelector` over a document modelled as an association list
from selector to element: the first matching element, if any. -/
def querySelector (dom : List (String × Element)) (sel : String) : Option Element :=
  (dom.find? fun e => e.1 == sel).map fun e => e.2

/-- Set `page-break-after: always` on the first element matching `sel`. -/
def setBreakAfterFirst : List (String × Element) → String → List (String × Element)
  | [], _ => []
  | e :: rest, sel =>
    if e.1 == sel then (e.1, { e.2 with pageBreakAfter := true }) :: rest
    else e :: setBreakAfterFirst rest sel

/-- `getElementOuterHtml` of `src/docusaurus.ts`, with the possibility of a
thrown error made explicit in the result type: when the selector matches, the
matched element receives the page-break style and its `outerHTML` is returned;
when nothing matches, the function logs a warning and returns the empty string
— it never throws. -/
def getElementOuterHtml (dom : List (String × Element)) (sel : String) :
    Except String (String × List (String × Element)) :=
  match querySelector dom sel with
  | some element => Except.ok (element.outerHtml, setBreakAfterFirst dom sel)
  | none => Except.ok ("", dom)

/-- C9: `getElementOuterHtml` is total at its interface: for every document and
every selector it returns `Except.ok`; with no matching element it returns the
empty string and leaves the document untouched (no style applied); it applies
the `page-break-after` style exactly when an element is found.  The extraction
step therefore cannot be the failing step of a harvest. -/
theorem getElementOuterHtml_total (dom : List (String × Element)) (sel : String) :
    (∃ r, getElementOuterHtml dom sel = Except.ok r)
      ∧ (querySelector dom sel = none →
          getElementOuterHtml dom sel = Except.ok ("", dom))
      ∧ ∀ element : Element, querySelector dom sel = some element →
          getElementOuterHtml dom sel
            = Except.ok (element.outerHtml, setBreakAfterFirst dom sel) := by
  refine ⟨?_, ?_, ?_⟩
  · cases hq : querySelector dom sel with
    | none => exact ⟨("", dom), by simp [getElementOuterHtml, hq]⟩
    | some e => exact ⟨(e.outerHtml, setBreakAfterFirst dom sel),
        by simp [getElementOuterHtml, hq]⟩
  · intro hq
    simp [getElementOuterHtml, hq]
  · intro e hq
    simp [getElementOuterHtml, hq]

/-! ## TOC rendering (`src/html.ts`) and document assembly -/

/-- A token of the rendered table of contents, at tag granularity: `<ul>`,
`</ul>`, one entry — `<li class=…>` with its indentation level immediately
followed by its anchor `<a href="#id">title</a>` — and `</li>`. -/
inductive Tok : Type where
  | ulOpen : Tok
  | ulClose : Tok
  | liEntry (cls : String) (level : Nat) (href text : String) : Tok
  | liClose : Tok
deriving DecidableEq, Repr

/-- The `items.forEach` body of `renderTocItems` in `src/html.ts`: each item
emits its `<li>`/anchor entry — class `toc-directory` for an item with
children, `toc-document` otherwise, indented by the current level, linking to
`#` + the item's id — then, for a directory, the recursively rendered sublist,
then `</li>`.  The recursive `renderTocItems(item.children, level+1)` call is
inlined: its empty-list guard is vacuous for a directory, and a leaf emits no
sublist. -/
def renderTocEntries : List SidebarItem → Nat → List Tok
  | [], _ => []
  | SidebarItem.mk t i _ _ c :: rest, level =>
    Tok.liEntry (if c.isEmpty then "toc-document" else "toc-directory") level
        ("#" ++ i) t
      :: ((if c.isEmpty then [] else
            Tok.ulOpen :: (renderTocEntries c (level + 1) ++ [Tok.ulClose]))
          ++ Tok.liClose :: renderTocEntries rest level)

/-- `renderTocItems` of `src/html.ts`: an empty item list renders nothing,
otherwise a `<ul>` wrapping the rendered entries. -/
def renderTocItems (items : List SidebarItem) (level : Nat) : List Tok :=
  match items with
  | [] => []
  | _ :: _ => Tok.ulOpen :: (renderTocEntries items level ++ [Tok.ulClose])

/-- The entries of a token list: each `liEntry`'s indentation level and anchor
href, in emission order. -/
def tocAnchors (toks : List Tok) : List (Nat × String) :=
  toks.filterMap fun tok =>
    match tok with
    | Tok.liEntry _ level href _ => some (level, href)
    | _ => none

/-- Specification-side view: every node of the forest paired with its depth
and its `#id` anchor, in pre-order. -/
def preorderWithDepth : List SidebarItem → Nat → List (Nat × String)
  | [], _ => []
  | SidebarItem.mk _ i _ _ c :: rest, level =>
    (level, "#" ++ i)
      :: (preorderWithDepth c (level + 1) ++ preorderWithDepth rest level)

theorem tocAnchors_nil : tocAnchors [] = [] := rfl

theorem tocAnchors_liEntry (cls : String) (level : Nat) (href text : String)
    (rest : List Tok) :
    tocAnchors (Tok.liEntry cls level href text :: rest)
      = (level, href) :: tocAnchors rest := by
  simp [tocAnchors]

theorem tocAnchors_ulOpen (rest : List Tok) :
    tocAnchors (Tok.ulOpen :: rest) = tocAnchors rest := by
  simp [tocAnchors]

theorem tocAnchors_ulClose (rest : List Tok) :
    tocAnchors (Tok.ulClose :: rest) = tocAnchors rest := by
  simp [tocAnchors]

theorem tocAnchors_liClose (rest : List Tok) :
    tocAnchors (Tok.liClose :: rest) = tocAnchors rest := by
  simp [tocAnchors]

theorem tocAnchors_append (a b : List Tok) :
    tocAnchors (a ++ b) = tocAnchors a ++ tocAnchors b := by
  simp [tocAnchors]

theorem tocAnchors_entries_aux (n : Nat) :
    ∀ items level, sizeOf items ≤ n →
      tocAnchors (renderTocEntries items level) = preorderWithDepth items level := by
  induction n with
  | zero =>
    intro items level h
    cases items with
    | nil => simp [renderTocEntries, preorderWithDepth, tocAnchors]
    | cons a l =>
      exfalso
      simp only [List.cons.sizeOf_spec] at h
      omega
  | succ n ih =>
    intro items level h
    cases items with
    | nil => simp [renderTocEntries, preorderWithDepth, tocAnchors]
    | cons item rest =>
      obtain ⟨t, i, p, u, c⟩ := item
      have hsz : sizeOf c ≤ n ∧ sizeOf rest ≤ n := by
        simp only [List.cons.sizeOf_spec, SidebarItem.mk.sizeOf_spec] at h
        omega
      have hrest := ih rest level hsz.2
      by_cases hc : c.isEmpty
      · have hcnil : c = [] := by
          cases c with
          | nil => rfl
          | cons x xs => simp [List.isEmpty] at hc
        subst hcnil
        simp only [renderTocEntries, List.isEmpty_nil, if_true, List.nil_append,
          tocAnchors_liEntry, tocAnchors_liClose, hrest, preorderWithDepth]
      · have hcf : c.isEmpty = false := Bool.eq_false_iff.mpr hc
        have hchild := ih c (level + 1) hsz.1
        simp only [renderTocEntries, hcf, Bool.false_eq_true, if_false,
          List.cons_append, List.append_assoc, tocAnchors_liEntry,
          tocAnchors_ulOpen, tocAnchors_append, tocAnchors_ulClose,
          tocAnchors_liClose, tocAnchors_nil, hchild, hrest,
          preorderWithDepth]
        simp

theorem tocAnchors_renderTocItems (items : List SidebarItem) (level : Nat) :
    tocAnchors (renderTocItems items level) = preorderWithDepth items level := by
  cases hitems : items with
  | nil => simp [renderTocItems, preorderWithDepth, tocAnchors]
  | cons item rest =>
    have h := tocAnchors_entries_aux (sizeOf (item :: rest)) (item :: rest)
      level (Nat.le_refl _)
    simp only [renderTocItems, tocAnchors_ulOpen, tocAnchors_append,
      tocAnchors_ulClose, tocAnchors_nil, List.append_nil, h]

/-- A block of the merged document: the cover block, the TOC block, or one
page fragment's content. -/
inductive Chunk : Type where
  | cover (mime base64 : String) : Chunk
  | toc (toks : List Tok) : Chunk
  | fragment (html : String) : Chunk
deriving DecidableEq, Repr

/-- JS truthiness of a possibly-undefined string: `undefined` and `''` are
falsy. -/
def truthy : Option String → Bool
  | none => false
  | some s => !(s == "")

/-- The stage-3 merging of `convertDocusaurusPageToPdf`: start from the empty
document; when a cover image was supplied and its base64 data and MIME type
were retrieved, append the cover block; append the TOC rendered from the full
sidebar tree at level 0; then append every `PageDetails`' html in order. -/
def assembleHtml (pdfCoverImage coverImageBase64 coverImageMimeType : Option String)
    (sidebarItems : List SidebarItem) (pageDetails : List PageDetails) : List Chunk :=
  (if truthy pdfCoverImage && truthy coverImageBase64
      && truthy coverImageMimeType then
    [Chunk.cover (coverImageMimeType.getD "") (coverImageBase64.getD "")]
  else [])
    ++ Chunk.toc (renderTocItems sidebarItems 0)
    :: pageDetails.map fun d => Chunk.fragment d.html

/-- C8: the assembled document is, in order, the optional cover block —
present exactly when a cover image was supplied and its data and MIME type
were retrieved — then the table-of-contents block holding exactly one anchor
entry per navigation node, `#` + the node's id, nested at the node's tree
depth, in pre-order, then every page fragment's content in the pool's output
order. -/
theorem assembleHtml_spec (cov b64 mime : Option String)
    (items : List SidebarItem) (details : List PageDetails) :
    ∃ coverChunks : List Chunk,
      assembleHtml cov b64 mime items details
          = coverChunks ++ Chunk.toc (renderTocItems items 0)
              :: details.map (fun d => Chunk.fragment d.html)
        ∧ ((∃ m b : String, coverChunks = [Chunk.cover m b])
            ↔ (truthy cov && truthy b64 && truthy mime) = true)
        ∧ (coverChunks = [] ↔ (truthy cov && truthy b64 && truthy mime) = false)
        ∧ tocAnchors (renderTocItems items 0) = preorderWithDepth items 0 := by
  refine ⟨if truthy cov && truthy b64 && truthy mime then
      [Chunk.cover (mime.getD "") (b64.getD "")] else [], rfl, ?_, ?_,
    tocAnchors_renderTocItems items 0⟩
  · by_cases h : (truthy cov && truthy b64 && truthy mime) = true
    · simp [h]
    · have hf : (truthy cov && truthy b64 && truthy mime) = false :=
        Bool.eq_false_iff.mpr h
      simp [hf]
  · by_cases h : (truthy cov && truthy b64 && truthy mime) = true
    · simp [h]
    · have hf : (truthy cov && truthy b64 && truthy mime) = false :=
        Bool.eq_false_iff.mpr h
      simp [hf]

end DocsToPdf
